import Mathlib

/-!
Verification of the noxcrypt streaming codec: a shallow embedding of the
block-buffered encrypting `Writer` (both variants present in the source),
the decrypting `Reader`, and the legacy CRC accumulator, together with
theorems settling the specification claims.

Bytes are modelled as `Nat` (values < 256 at the call boundaries, with the
Go `byte`/`uint32` truncations made explicit where the source relies on
them).  Machine integers (`uint32`, Go `int`, `int64`) are `Nat`/`Int` with
explicit `% 2^32` where overflow matters.  The keyed block cipher is an
external collaborator (golang.org/x/crypto/blowfish) and is abstracted as a
pair of functions on byte lists, exactly the interface the spec assigns it.
The byte sink/source collaborators are modelled as explicit state passing:
a sink is a state type with a write function returning an error flag, the
reader's source is an in-memory byte list with a cursor.
-/

namespace crypt

/-- Modelled from the spec: the repository's `Block` constant (the cipher's
native block width) lives in a file outside `src/`; the spec's concrete
scenarios and the blowfish block size fix it at 8 bytes. -/
def Block : Nat := 8

/-! ## CRC accumulator (src/crc_std.go) -/
/-- The IEEE CRC-32 polynomial (reflected), `crc32.IEEE` in Go. -/
def crc32poly : Nat := 0xEDB88320

/-- One round of the table construction in `simplePopulateTable`:
if the low bit is set, `crc = (crc>>1) xor poly`, else `crc >>= 1`. -/
def crcRound (crc : Nat) : Nat :=
  if crc % 2 = 1 then (crc / 2) ^^^ crc32poly else crc / 2

/-- Entry `i` of the 256-entry table built by `simplePopulateTable`
(8 rounds applied to the index). -/
def crcTableEntry (i : Nat) : Nat :=
  (List.range 8).foldl (fun c _ => crcRound c) i

/-- The per-byte step of `UpdateCRC`: `crc = table[byte(crc)^v] ^ (crc >> 8)`.
`byte(crc)` is the Go truncation `crc % 256`; `v` is a byte (`% 256`). -/
def crcStep (crc v : Nat) : Nat :=
  crcTableEntry ((crc % 256) ^^^ (v % 256)) ^^^ (crc >>> 8)

/-- Initial value for `UpdateCRC` (`ZeroCRC` in crc_table.go). -/
def ZeroCRC : Nat := 0xFFFFFFFF

/-- `UpdateCRC` from crc_table.go: the Nox CRC update.  It omits the initial
bit-invert of `simpleUpdate` but still returns the bit-complement of the
running value.  The incoming `crc` is a `uint32`, hence the `% 2^32`. -/
def UpdateCRC (crc : Nat) (p : List Nat) : Nat :=
  (p.foldl crcStep (crc % 2^32)) ^^^ 0xFFFFFFFF

/-- `UpdateCRCStd` from crc_std.go via `simpleUpdate`: complements the
running value both on entry and on return. -/
def UpdateCRCStd (crc : Nat) (p : List Nat) : Nat :=
  (p.foldl crcStep ((crc % 2^32) ^^^ 0xFFFFFFFF)) ^^^ 0xFFFFFFFF

/-- Initial value for `UpdateCRCStd`. -/
def ZeroCRCStd : Nat := 0

/-! ## Block-buffered encoding writer, checksum-capable variant
(src/unnamed/part_000, first file).

The writer is parameterised by the sink: a state type `σ` with a write
function `wr` returning the new state and an error flag (Go's
`io.Writer.Write`; the source ignores the returned count), and by the
cipher's encrypt function `enc`.  The random-access capability
(`io.WriterAt`, detected by `Reset`) is the flag `hasAt` plus a separate
`wrAt` function. -/
/-- Go's builtin `copy(dst[i:], p)` on a list: returns the updated list and
the number of elements copied, `min (dst.length - i) p.length`. -/
def copyTo (dst : List Nat) (i : Nat) (p : List Nat) : List Nat × Nat :=
  let n := min (dst.length - i) p.length
  (dst.take i ++ p.take n ++ dst.drop (i + n), n)

structure Writer (σ : Type) where
  sink : σ
  hasAt : Bool
  buf : List Nat
  n : Nat
  off : Int
  crc : Nat
  NoZero : Bool

/-- Fresh writer as produced by `NewWriter`/`Reset`: zeroed buffer, cursor,
offset, CRC at the sentinel; `NoZero` is the compatibility flag field. -/
def Writer.mk0 {σ : Type} (s : σ) (hasAt nz : Bool) : Writer σ :=
  ⟨s, hasAt, List.replicate Block 0, 0, 0, ZeroCRC, nz⟩

/-- `Writer.CRC`. -/
def Writer.CRC {σ : Type} (w : Writer σ) : Nat := w.crc

/-- `Writer.Written`. -/
def Writer.Written {σ : Type} (w : Writer σ) : Int := w.off

/-- Inner `Writer.flush`: checksums the buffer, encrypts it, writes the
ciphertext to the sink, advances the offset to the block boundary and
resets the cursor — all of this happens even when the sink write fails,
whose error is returned last. -/
def Writer.flush {σ : Type} (wr : σ → List Nat → σ × Bool)
    (enc : List Nat → List Nat) (w : Writer σ) : Writer σ × Bool :=
  let crc2 := UpdateCRC w.crc w.buf
  let dst := enc w.buf
  let se := wr w.sink dst
  ({ w with sink := se.1, crc := crc2,
            off := w.off + ((Block : Int) - (w.n : Int)), n := 0 }, se.2)

/-- `Writer.Flush`: no-op on an empty buffer; otherwise zero-fills the
unused tail (unless `NoZero` or the buffer is already full) and flushes. -/
def Writer.Flush {σ : Type} (wr : σ → List Nat → σ × Bool)
    (enc : List Nat → List Nat) (w : Writer σ) : Writer σ × Bool :=
  if w.n = 0 then (w, false)
  else
    let w1 := if ¬ w.NoZero ∧ w.n ≠ Block then
        { w with buf := (copyTo w.buf w.n (List.replicate Block 0)).1 }
      else w
    Writer.flush wr enc w1

/-- `Writer.Close` is `Flush`. -/
def Writer.Close {σ : Type} (wr : σ → List Nat → σ × Bool)
    (enc : List Nat → List Nat) (w : Writer σ) : Writer σ × Bool :=
  Writer.Flush wr enc w

/-- Inner `Writer.write`: copies into the block buffer, advances cursor and
offset; if the buffer became full, flushes (returning count 0 on a flush
error) and, under `NoZero`, clears the buffer. -/
def Writer.write {σ : Type} (wr : σ → List Nat → σ × Bool)
    (enc : List Nat → List Nat) (w : Writer σ) (p : List Nat) :
    Writer σ × Nat × Bool :=
  let bc := copyTo w.buf w.n p
  let w1 := { w with buf := bc.1, n := w.n + bc.2, off := w.off + (bc.2 : Int) }
  if w1.n = Block then
    match Writer.flush wr enc w1 with
    | (w2, true) => (w2, 0, true)
    | (w2, false) =>
      if w2.NoZero then ({ w2 with buf := List.replicate Block 0 }, bc.2, false)
      else (w2, bc.2, false)
  else (w1, bc.2, false)

/-- The loop of `Writer.Write`, fuelled.  Each successful inner `write`
consumes at least one byte from a reachable state (`n ≤ Block`), so
`p.length + 1` fuel is exact; on states the Go code cannot reach
(`n > Block`, where Go panics on the slice) the fuel simply runs out. -/
def Writer.WriteAux {σ : Type} (wr : σ → List Nat → σ × Bool)
    (enc : List Nat → List Nat) :
    Nat → Writer σ → List Nat → Writer σ × Nat × Bool
  | 0, w, _ => (w, 0, false)
  | fuel+1, w, p =>
    if p = [] then (w, 0, false)
    else
      match Writer.write wr enc w p with
      | (w1, c, true) => (w1, c, true)
      | (w1, c, false) =>
        match Writer.WriteAux wr enc fuel w1 (p.drop c) with
        | (w2, m, err) => (w2, c + m, err)

/-- `Writer.Write` (io.Writer): loops until the whole input is consumed or
an error occurs, returning the total count. -/
def Writer.Write {σ : Type} (wr : σ → List Nat → σ × Bool)
    (enc : List Nat → List Nat) (w : Writer σ) (p : List Nat) :
    Writer σ × Nat × Bool :=
  Writer.WriteAux wr enc (p.length + 1) w p

/-- `binary.LittleEndian.PutUint16`. -/
def le16 (v : Nat) : List Nat := [v % 256, v / 256 % 256]

/-- `binary.LittleEndian.PutUint32`. -/
def le32 (v : Nat) : List Nat :=
  [v % 256, v / 256 % 256, v / 65536 % 256, v / 16777216 % 256]

/-- `binary.LittleEndian.PutUint64`. -/
def le64 (v : Nat) : List Nat :=
  [v % 256, v / 256 % 256, v / 65536 % 256, v / 16777216 % 256,
   v / 2^32 % 256, v / 2^40 % 256, v / 2^48 % 256, v / 2^56 % 256]

/-- Go's integer casts to an unsigned width: two's complement reduction. -/
def toUnsigned (w : Nat) (v : Int) : Nat := (v % (2^w : Nat)).toNat

def Writer.WriteU8 {σ : Type} (wr : σ → List Nat → σ × Bool)
    (enc : List Nat → List Nat) (w : Writer σ) (v : Nat) : Writer σ × Bool :=
  let r := Writer.Write wr enc w [v % 256]
  (r.1, r.2.2)

def Writer.WriteU16 {σ : Type} (wr : σ → List Nat → σ × Bool)
    (enc : List Nat → List Nat) (w : Writer σ) (v : Nat) : Writer σ × Bool :=
  let r := Writer.Write wr enc w (le16 v)
  (r.1, r.2.2)

def Writer.WriteU32 {σ : Type} (wr : σ → List Nat → σ × Bool)
    (enc : List Nat → List Nat) (w : Writer σ) (v : Nat) : Writer σ × Bool :=
  let r := Writer.Write wr enc w (le32 v)
  (r.1, r.2.2)

def Writer.WriteU64 {σ : Type} (wr : σ → List Nat → σ × Bool)
    (enc : List Nat → List Nat) (w : Writer σ) (v : Nat) : Writer σ × Bool :=
  let r := Writer.Write wr enc w (le64 v)
  (r.1, r.2.2)

def Writer.WriteI8 {σ : Type} (wr : σ → List Nat → σ × Bool)
    (enc : List Nat → List Nat) (w : Writer σ) (v : Int) : Writer σ × Bool :=
  Writer.WriteU8 wr enc w (toUnsigned 8 v)

def Writer.WriteI16 {σ : Type} (wr : σ → List Nat → σ × Bool)
    (enc : List Nat → List Nat) (w : Writer σ) (v : Int) : Writer σ × Bool :=
  Writer.WriteU16 wr enc w (toUnsigned 16 v)

def Writer.WriteI32 {σ : Type} (wr : σ → List Nat → σ × Bool)
    (enc : List Nat → List Nat) (w : Writer σ) (v : Int) : Writer σ × Bool :=
  Writer.WriteU32 wr enc w (toUnsigned 32 v)

def Writer.WriteI64 {σ : Type} (wr : σ → List Nat → σ × Bool)
    (enc : List Nat → List Nat) (w : Writer σ) (v : Int) : Writer σ × Bool :=
  Writer.WriteU64 wr enc w (toUnsigned 64 v)

/-- `Writer.WriteEmpty` (checksum-capable variant): flush, then feed one
zero block both to the CRC and, unencrypted, to the sink; returns the
logical offset at which the placeholder block begins. -/
def Writer.WriteEmpty {σ : Type} (wr : σ → List Nat → σ × Bool)
    (enc : List Nat → List Nat) (w : Writer σ) : Writer σ × Int × Bool :=
  match Writer.Flush wr enc w with
  | (w1, true) => (w1, 0, true)
  | (w1, false) =>
    let crc2 := UpdateCRC w1.crc (List.replicate Block 0)
    let se := wr w1.sink (List.replicate Block 0)
    ({ w1 with sink := se.1, crc := crc2, off := w1.off + (Block : Int) },
     w1.off, se.2)

/-- `Writer.WriteBlockAt`: requires the sink's random-access capability;
encrypts the payload and overwrites the sink at the given offset. -/
def Writer.WriteBlockAt {σ : Type} (wrAt : σ → List Nat → Int → σ × Bool)
    (enc : List Nat → List Nat) (w : Writer σ) (buf : List Nat) (off : Int) :
    Writer σ × Bool :=
  if ¬ w.hasAt then (w, true)
  else
    let dst := enc buf
    let se := wrAt w.sink dst off
    ({ w with sink := se.1 }, se.2)

/-- The pure in-memory sink: state is the list of bytes written so far,
writes always succeed. -/
def pureWr (out : List Nat) (p : List Nat) : List Nat × Bool := (out ++ p, false)

/-- A sink whose every write fails. -/
def failWr (_u : Unit) (_p : List Nat) : Unit × Bool := ((), true)

/-! ## Block-buffered decoding reader (src/reader.go).

The source collaborator (`io.Reader` + optional `io.Seeker`) is modelled
in-memory: `data` is the full underlying byte stream and `pos` the
source's own cursor (which sits at the end of the last fetched block,
ahead of the reader's logical position).  `hasSeek` is the capability
detected by `Reset` (`r.s, _ = s.(io.Seeker)`); `dec` is the cipher's
block decrypt. -/
structure Reader where
  data : List Nat
  pos : Nat
  hasSeek : Bool
  buf : List Nat
  i : Int

/-- Fresh reader as produced by `NewReader`/`Reset`: no block loaded
(`i = -1`), source at the start. -/
def Reader.mk0 (data : List Nat) (hs : Bool) : Reader :=
  ⟨data, 0, hs, List.replicate Block 0, -1⟩

/-- `Reader.Buffered`: bytes remaining in the currently loaded block. -/
def Reader.Buffered (r : Reader) : Nat :=
  if r.i < 0 ∨ (Block : Int) ≤ r.i then 0 else ((Block : Int) - r.i).toNat

/-- `Reader.readNext`: `io.ReadFull` of one block from the source — on a
short read the error is returned, the cursor `i` is left untouched and no
block is decrypted (the partially read bytes land in the buffer prefix,
as `ReadFull` wrote them, but are never served); on success the block is
decrypted and `i` is reset to 0. -/
def Reader.readNext (dec : List Nat → List Nat) (r : Reader) : Reader × Bool :=
  let got := (r.data.drop r.pos).take Block
  if got.length < Block then
    ({ r with pos := r.pos + got.length, buf := got ++ r.buf.drop got.length }, true)
  else
    ({ r with pos := r.pos + Block, buf := dec got, i := 0 }, false)

/-- The `copy(p, r.buf[r.i:]); r.i += n` step of the inner `Reader.read`:
serves up to `k` bytes from the loaded block. -/
def Reader.serve (r : Reader) (k : Nat) : Reader × List Nat × Bool :=
  let n := min (Block - r.i.toNat) k
  ({ r with i := r.i + (n : Int) }, (r.buf.drop r.i.toNat).take n, false)

/-- Inner `Reader.read`: refills the block if none is loaded or the
current one is exhausted, then serves from the buffer. -/
def Reader.read (dec : List Nat → List Nat) (r : Reader) (k : Nat) :
    Reader × List Nat × Bool :=
  if r.i < 0 ∨ (Block : Int) ≤ r.i then
    match Reader.readNext dec r with
    | (r1, true) => (r1, [], true)
    | (r1, false) => Reader.serve r1 k
  else Reader.serve r k

/-- The loop of `Reader.Read`, fuelled; a successful inner `read` always
serves at least one byte when bytes are requested, so `k` fuel is exact. -/
def Reader.ReadAux (dec : List Nat → List Nat) :
    Nat → Reader → Nat → Reader × List Nat × Bool
  | 0, r, _ => (r, [], false)
  | fuel+1, r, k =>
    if k = 0 then (r, [], false)
    else
      match Reader.read dec r k with
      | (r1, bs, true) => (r1, bs, true)
      | (r1, bs, false) =>
        match Reader.ReadAux dec fuel r1 (k - bs.length) with
        | (r2, bs2, err) => (r2, bs ++ bs2, err)

/-- `Reader.Read` (io.Reader on a `k`-byte caller buffer): loops until the
caller buffer is satisfied or an error occurs; returns the bytes obtained
(whose length is the returned count) and the error flag. -/
def Reader.Read (dec : List Nat → List Nat) (r : Reader) (k : Nat) :
    Reader × List Nat × Bool :=
  Reader.ReadAux dec k r k

/-- `Reader.Align`: refills the block exactly when the buffered count is
not a multiple of the block size. -/
def Reader.Align (dec : List Nat → List Nat) (r : Reader) : Reader × Bool :=
  if r.Buffered % Block ≠ 0 then Reader.readNext dec r else (r, false)

/-- The underlying source's `Seek` (a bytes-style seeker over `data`):
whence 0 = start, 1 = current, 2 = end; errors on a negative target. -/
def Reader.seekSrc (r : Reader) (off : Int) (whence : Nat) : Reader × Int × Bool :=
  let base : Int :=
    if whence = 0 then 0
    else if whence = 1 then (r.pos : Int)
    else (r.data.length : Int)
  let npos := base + off
  if npos < 0 then (r, 0, true)
  else ({ r with pos := npos.toNat }, npos, false)

/-- `Reader.Seek`: unsupported without the seek capability; compensates a
relative seek by the buffered count, seeks the source, invalidates the
loaded block, and on a non-aligned target re-seeks back to the block
boundary, eagerly fetches and decrypts that block and puts the cursor at
the intra-block remainder. -/
def Reader.Seek (dec : List Nat → List Nat) (r : Reader) (off : Int)
    (whence : Nat) : Reader × Int × Bool :=
  if ¬ r.hasSeek then (r, 0, true)
  else
    let off1 := if whence = 1 then off - (r.Buffered : Int) else off
    match Reader.seekSrc r off1 whence with
    | (r1, cur, err) =>
      let r2 := { r1 with i := -1 }
      if err then (r2, 0, true)
      else
        let rem := cur % (Block : Int)
        if rem = 0 then (r2, cur, false)
        else
          match Reader.seekSrc r2 (-rem) 1 with
          | (r3, _, true) => (r3, 0, true)
          | (r3, _, false) =>
            match Reader.readNext dec r3 with
            | (r4, true) => (r4, 0, true)
            | (r4, false) => ({ r4 with i := rem }, cur, false)

/-! ## Block decomposition of byte streams (proof infrastructure). -/
/-- Pad a (short) block with zero bytes up to the block size. -/
def padTo8 (l : List Nat) : List Nat := l ++ List.replicate (Block - l.length) 0

/-- Split a stream into blocks, the final partial block zero-padded. -/
def chunk8 (S : List Nat) : List (List Nat) :=
  if h : S = [] then [] else padTo8 (S.take Block) :: chunk8 (S.drop Block)
termination_by S.length
decreasing_by
  have : 0 < S.length := List.length_pos.mpr h
  simp only [List.length_drop]
  unfold Block
  omega

/-- The full blocks of a stream, remainder discarded. -/
def chunkFull (S : List Nat) : List (List Nat) :=
  if h : S.length < Block then [] else S.take Block :: chunkFull (S.drop Block)
termination_by S.length
decreasing_by
  simp only [List.length_drop]
  unfold Block at h ⊢
  omega

/-- The plaintext a reader would serve from stream `S`: every block
decrypted, concatenated. -/
def plainOf (dec : List Nat → List Nat) (S : List Nat) : List Nat :=
  ((chunk8 S).map dec).flatten

/-- Abstraction relation between a reader state and a logical byte
position `q` in the decrypted stream: either no block is loaded and the
source cursor sits at `q` (a block boundary), or the block containing `q`
is loaded and decrypted in `buf` with the intra-block cursor at
`q mod Block`, the source cursor one block ahead. -/
def Good (dec : List Nat → List Nat) (S : List Nat) (q : Nat) (r : Reader) : Prop :=
  r.data = S ∧ r.pos % Block = 0 ∧ r.pos ≤ S.length ∧
  ((r.i < 0 ∧ q = r.pos) ∨
   (∃ j : Nat, r.i = (j : Int) ∧ j ≤ Block ∧ Block ≤ r.pos ∧
     r.buf = dec ((S.drop (r.pos - Block)).take Block) ∧
     q + Block = r.pos + j))

/-- The ciphertext stream produced by writing `P` through a fresh writer
(tail zeroing enabled) and flushing. -/
def encode (enc : List Nat → List Nat) (P : List Nat) : List Nat :=
  (Writer.Flush pureWr enc
    (Writer.Write pureWr enc (Writer.mk0 [] false false) P).1).1.sink

/-! ## Block-buffered encoding writer, legacy variant
(src/unnamed/part_000, second file): no checksum, no `io.WriterAt`
support, `WriteEmpty` returns only the error. -/
namespace legacy

structure Writer (σ : Type) where
  sink : σ
  buf : List Nat
  n : Nat
  off : Int
  NoZero : Bool

def Writer.mk0 {σ : Type} (s : σ) (nz : Bool) : Writer σ :=
  ⟨s, List.replicate Block 0, 0, 0, nz⟩

/-- `Writer.Written` (legacy variant). -/
def Writer.Written {σ : Type} (w : Writer σ) : Int := w.off

def Writer.flush {σ : Type} (wr : σ → List Nat → σ × Bool)
    (enc : List Nat → List Nat) (w : Writer σ) : Writer σ × Bool :=
  let dst := enc w.buf
  let se := wr w.sink dst
  ({ w with sink := se.1, off := w.off + ((Block : Int) - (w.n : Int)), n := 0 }, se.2)

def Writer.Flush {σ : Type} (wr : σ → List Nat → σ × Bool)
    (enc : List Nat → List Nat) (w : Writer σ) : Writer σ × Bool :=
  if w.n = 0 then (w, false)
  else
    let w1 := if ¬ w.NoZero ∧ w.n ≠ Block then
        { w with buf := (copyTo w.buf w.n (List.replicate Block 0)).1 }
      else w
    Writer.flush wr enc w1

def Writer.Close {σ : Type} (wr : σ → List Nat → σ × Bool)
    (enc : List Nat → List Nat) (w : Writer σ) : Writer σ × Bool :=
  Writer.Flush wr enc w

def Writer.write {σ : Type} (wr : σ → List Nat → σ × Bool)
    (enc : List Nat → List Nat) (w : Writer σ) (p : List Nat) :
    Writer σ × Nat × Bool :=
  let bc := copyTo w.buf w.n p
  let w1 := { w with buf := bc.1, n := w.n + bc.2, off := w.off + (bc.2 : Int) }
  if w1.n = Block then
    match Writer.flush wr enc w1 with
    | (w2, true) => (w2, 0, true)
    | (w2, false) =>
      if w2.NoZero then ({ w2 with buf := List.replicate Block 0 }, bc.2, false)
      else (w2, bc.2, false)
  else (w1, bc.2, false)

def Writer.WriteAux {σ : Type} (wr : σ → List Nat → σ × Bool)
    (enc : List Nat → List Nat) :
    Nat → Writer σ → List Nat → Writer σ × Nat × Bool
  | 0, w, _ => (w, 0, false)
  | fuel+1, w, p =>
    if p = [] then (w, 0, false)
    else
      match Writer.write wr enc w p with
      | (w1, c, true) => (w1, c, true)
      | (w1, c, false) =>
        match Writer.WriteAux wr enc fuel w1 (p.drop c) with
        | (w2, m, err) => (w2, c + m, err)

def Writer.Write {σ : Type} (wr : σ → List Nat → σ × Bool)
    (enc : List Nat → List Nat) (w : Writer σ) (p : List Nat) :
    Writer σ × Nat × Bool :=
  Writer.WriteAux wr enc (p.length + 1) w p

def Writer.WriteU8 {σ : Type} (wr : σ → List Nat → σ × Bool)
    (enc : List Nat → List Nat) (w : Writer σ) (v : Nat) : Writer σ × Bool :=
  let r := Writer.Write wr enc w [v % 256]
  (r.1, r.2.2)

def Writer.WriteU16 {σ : Type} (wr : σ → List Nat → σ × Bool)
    (enc : List Nat → List Nat) (w : Writer σ) (v : Nat) : Writer σ × Bool :=
  let r := Writer.Write wr enc w (le16 v)
  (r.1, r.2.2)

def Writer.WriteU32 {σ : Type} (wr : σ → List Nat → σ × Bool)
    (enc : List Nat → List Nat) (w : Writer σ) (v : Nat) : Writer σ × Bool :=
  let r := Writer.Write wr enc w (le32 v)
  (r.1, r.2.2)

def Writer.WriteU64 {σ : Type} (wr : σ → List Nat → σ × Bool)
    (enc : List Nat → List Nat) (w : Writer σ) (v : Nat) : Writer σ × Bool :=
  let r := Writer.Write wr enc w (le64 v)
  (r.1, r.2.2)

def Writer.WriteI8 {σ : Type} (wr : σ → List Nat → σ × Bool)
    (enc : List Nat → List Nat) (w : Writer σ) (v : Int) : Writer σ × Bool :=
  Writer.WriteU8 wr enc w (toUnsigned 8 v)

def Writer.WriteI16 {σ : Type} (wr : σ → List Nat → σ × Bool)
    (enc : List Nat → List Nat) (w : Writer σ) (v : Int) : Writer σ × Bool :=
  Writer.WriteU16 wr enc w (toUnsigned 16 v)

def Writer.WriteI32 {σ : Type} (wr : σ → List Nat → σ × Bool)
    (enc : List Nat → List Nat) (w : Writer σ) (v : Int) : Writer σ × Bool :=
  Writer.WriteU32 wr enc w (toUnsigned 32 v)

def Writer.WriteI64 {σ : Type} (wr : σ → List Nat → σ × Bool)
    (enc : List Nat → List Nat) (w : Writer σ) (v : Int) : Writer σ × Bool :=
  Writer.WriteU64 wr enc w (toUnsigned 64 v)

def Writer.WriteEmpty {σ : Type} (wr : σ → List Nat → σ × Bool)
    (enc : List Nat → List Nat) (w : Writer σ) : Writer σ × Bool :=
  match Writer.Flush wr enc w with
  | (w1, true) => (w1, true)
  | (w1, false) =>
    let se := wr w1.sink (List.replicate Block 0)
    ({ w1 with sink := se.1, off := w1.off + (Block : Int) }, se.2)

end legacy

/-- A call issued to a writer: raw bytes, a typed little-endian integer
write, a flush/close, or a reserve-block. -/
inductive WOp where
  | write (p : List Nat)
  | writeU8 (v : Nat)
  | writeU16 (v : Nat)
  | writeU32 (v : Nat)
  | writeU64 (v : Nat)
  | writeI8 (v : Int)
  | writeI16 (v : Int)
  | writeI32 (v : Int)
  | writeI64 (v : Int)
  | flushOp
  | closeOp
  | writeEmptyOp

/-- Run one writer call on the checksum-capable variant (results other
than the state are discarded). -/
def runOp {σ : Type} (wr : σ → List Nat → σ × Bool)
    (enc : List Nat → List Nat) (w : Writer σ) : WOp → Writer σ
  | .write p => (Writer.Write wr enc w p).1
  | .writeU8 v => (Writer.WriteU8 wr enc w v).1
  | .writeU16 v => (Writer.WriteU16 wr enc w v).1
  | .writeU32 v => (Writer.WriteU32 wr enc w v).1
  | .writeU64 v => (Writer.WriteU64 wr enc w v).1
  | .writeI8 v => (Writer.WriteI8 wr enc w v).1
  | .writeI16 v => (Writer.WriteI16 wr enc w v).1
  | .writeI32 v => (Writer.WriteI32 wr enc w v).1
  | .writeI64 v => (Writer.WriteI64 wr enc w v).1
  | .flushOp => (Writer.Flush wr enc w).1
  | .closeOp => (Writer.Close wr enc w).1
  | .writeEmptyOp => (Writer.WriteEmpty wr enc w).1

def runOps {σ : Type} (wr : σ → List Nat → σ × Bool)
    (enc : List Nat → List Nat) (w : Writer σ) (ops : List WOp) : Writer σ :=
  ops.foldl (runOp wr enc) w

/-- Run one writer call on the legacy variant. -/
def runOpL {σ : Type} (wr : σ → List Nat → σ × Bool)
    (enc : List Nat → List Nat) (w : legacy.Writer σ) : WOp → legacy.Writer σ
  | .write p => (legacy.Writer.Write wr enc w p).1
  | .writeU8 v => (legacy.Writer.WriteU8 wr enc w v).1
  | .writeU16 v => (legacy.Writer.WriteU16 wr enc w v).1
  | .writeU32 v => (legacy.Writer.WriteU32 wr enc w v).1
  | .writeU64 v => (legacy.Writer.WriteU64 wr enc w v).1
  | .writeI8 v => (legacy.Writer.WriteI8 wr enc w v).1
  | .writeI16 v => (legacy.Writer.WriteI16 wr enc w v).1
  | .writeI32 v => (legacy.Writer.WriteI32 wr enc w v).1
  | .writeI64 v => (legacy.Writer.WriteI64 wr enc w v).1
  | .flushOp => (legacy.Writer.Flush wr enc w).1
  | .closeOp => (legacy.Writer.Close wr enc w).1
  | .writeEmptyOp => (legacy.Writer.WriteEmpty wr enc w).1

def runOpsL {σ : Type} (wr : σ → List Nat → σ × Bool)
    (enc : List Nat → List Nat) (w : legacy.Writer σ) (ops : List WOp) :
    legacy.Writer σ :=
  ops.foldl (runOpL wr enc) w

/-- Forget the checksum and random-access fields of the full writer. -/
def eraseW {σ : Type} (w : Writer σ) : legacy.Writer σ :=
  ⟨w.sink, w.buf, w.n, w.off, w.NoZero⟩

theorem crcRound_lt (c : Nat) (h : c < 2^32) : crcRound c < 2^32 := by
  unfold crcRound
  split
  · exact Nat.xor_lt_two_pow (by omega) (by decide)
  · omega

theorem crcTableEntry_lt (i : Nat) (h : i < 2^32) : crcTableEntry i < 2^32 := by
  unfold crcTableEntry
  simp only [List.range_succ, List.foldl_append, List.foldl_cons, List.foldl_nil,
    List.range_zero]
  exact crcRound_lt _ (crcRound_lt _ (crcRound_lt _ (crcRound_lt _ (crcRound_lt _
    (crcRound_lt _ (crcRound_lt _ (crcRound_lt _ h)))))))

theorem crcStep_lt (c v : Nat) (h : c < 2^32) : crcStep c v < 2^32 := by
  unfold crcStep
  refine Nat.xor_lt_two_pow (crcTableEntry_lt _ ?_) ?_
  · exact Nat.xor_lt_two_pow (by omega) (by omega)
  · calc c >>> 8 = c / 2^8 := Nat.shiftRight_eq_div_pow c 8
    _ < 2^32 := by omega

theorem foldl_crcStep_lt (p : List Nat) : ∀ c, c < 2^32 → p.foldl crcStep c < 2^32 := by
  induction p with
  | nil => intro c h; simpa using h
  | cons v p ih => intro c h; exact ih _ (crcStep_lt c v h)

theorem xor_xor_cancel (x m : Nat) : (x ^^^ m) ^^^ m = x := by
  rw [Nat.xor_assoc, Nat.xor_self, Nat.xor_zero]

/-- C2 counterexample: chaining two `UpdateCRC` calls from the sentinel
start value is NOT the same as one call over the concatenation — the
returned value is bit-complemented but the next call does not undo the
complement.  Witnessed at A = [0], B = [0]. -/
theorem crc_split_counterexample :
    UpdateCRC (UpdateCRC ZeroCRC [0]) [0] ≠ UpdateCRC ZeroCRC ([0] ++ [0]) := by
  decide

/-- C2 (amended): split-invariance holds once the intermediate value is
bit-complemented between the two calls (undoing the final complement of
the first call): for all byte sequences A and B,
`UpdateCRC(not32(UpdateCRC(ZeroCRC, A)), B) == UpdateCRC(ZeroCRC, A ++ B)`. -/
theorem crc_split_complemented (A B : List Nat) :
    UpdateCRC ((UpdateCRC ZeroCRC A) ^^^ 0xFFFFFFFF) B = UpdateCRC ZeroCRC (A ++ B) := by
  unfold UpdateCRC
  rw [xor_xor_cancel, List.foldl_append,
    Nat.mod_eq_of_lt (foldl_crcStep_lt A _ (by unfold ZeroCRC; omega))]

theorem pure_flush_ok (enc : List Nat → List Nat) (w : Writer (List Nat)) :
    (Writer.flush pureWr enc w).2 = false := rfl

theorem pure_Flush_ok (enc : List Nat → List Nat) (w : Writer (List Nat)) :
    (Writer.Flush pureWr enc w).2 = false := by
  unfold Writer.Flush
  split
  · rfl
  · exact pure_flush_ok enc _

set_option maxRecDepth 8192 in
/-- C3 counterexample: on a fresh empty writer, `WriteEmpty` changes the
checksum state (the placeholder zero block IS fed to the CRC), refuting
"the checksum state is unchanged by the placeholder". -/
theorem WriteEmpty_crc_changes :
    (Writer.WriteEmpty pureWr id (Writer.mk0 [] false false)).1.crc ≠
      (Writer.mk0 ([] : List Nat) false false).crc := by
  decide

/-- C3 (amended): `WriteEmpty` first flushes any pending buffered data,
then appends exactly one block of zero bytes to the sink without
encrypting it, updates the checksum with that zero block, advances the
logical offset by one block, and returns the logical offset at which the
placeholder block begins; on a fresh empty writer the returned offset
is 0. -/
theorem WriteEmpty_spec (enc : List Nat → List Nat) (w : Writer (List Nat)) :
    Writer.WriteEmpty pureWr enc w =
      ({ (Writer.Flush pureWr enc w).1 with
          sink := (Writer.Flush pureWr enc w).1.sink ++ List.replicate Block 0,
          crc := UpdateCRC (Writer.Flush pureWr enc w).1.crc (List.replicate Block 0),
          off := (Writer.Flush pureWr enc w).1.off + (Block : Int) },
        (Writer.Flush pureWr enc w).1.off, false) ∧
    (Writer.WriteEmpty pureWr id (Writer.mk0 [] false false)).2.1 = 0 := by
  constructor
  · unfold Writer.WriteEmpty
    have h := pure_Flush_ok enc w
    cases hf : Writer.Flush pureWr enc w with
    | mk w1 e =>
      rw [hf] at h
      simp at h
      subst h
      simp [pureWr, hf]
  · set_option maxRecDepth 8192 in decide

/-- C4: on a fresh writer (arbitrary leftover buffer contents, as `Reset`
does not clear the buffer) with the zeroing behaviour enabled, writing
`[0x01,0x02,0x03]` and then flushing emits exactly one encrypted block to
the sink whose pre-encryption plaintext is `01 02 03 00 00 00 00 00`, and
the checksum is taken over that zero-padded plaintext. -/
theorem padded_flush (enc : List Nat → List Nat) (buf0 : List Nat) (h : buf0.length = 8) :
    (Writer.Flush pureWr enc
        (Writer.Write pureWr enc { Writer.mk0 [] false false with buf := buf0 } [1,2,3]).1).1.sink
      = enc [1,2,3,0,0,0,0,0] ∧
    (Writer.Flush pureWr enc
        (Writer.Write pureWr enc { Writer.mk0 [] false false with buf := buf0 } [1,2,3]).1).1.crc
      = UpdateCRC ZeroCRC [1,2,3,0,0,0,0,0] ∧
    (Writer.Flush pureWr enc
        (Writer.Write pureWr enc { Writer.mk0 [] false false with buf := buf0 } [1,2,3]).1).2
      = false := by
  obtain ⟨b0, b1, b2, b3, b4, b5, b6, b7, hnil⟩ :
      ∃ b0 b1 b2 b3 b4 b5 b6 b7, buf0 = [b0, b1, b2, b3, b4, b5, b6, b7] := by
    match buf0, h with
    | [b0, b1, b2, b3, b4, b5, b6, b7], _ => exact ⟨b0, b1, b2, b3, b4, b5, b6, b7, rfl⟩
  subst hnil
  refine ⟨rfl, rfl, rfl⟩

/-- C4 witness: the padded-flush scenario evaluated with a dirty
length-8 buffer and the identity cipher. -/
theorem padded_flush_witness :
    ([9,9,9,9,9,9,9,9] : List Nat).length = 8 ∧
    (Writer.Flush pureWr id
        (Writer.Write pureWr id { Writer.mk0 [] false false with buf := [9,9,9,9,9,9,9,9] }
          [1,2,3]).1).1.sink = id [1,2,3,0,0,0,0,0] :=
  ⟨by decide, (padded_flush id [9,9,9,9,9,9,9,9] (by decide)).1⟩

/-- C10: when the sink's write fails during a flush triggered inside
`Write`, the writer still updates the checksum with the full block's
plaintext, advances the logical offset to the next block boundary, and
resets the fill cursor to zero before surfacing the error; the buffered
plaintext is discarded and the returned byte count excludes the bytes the
failing step consumed into the buffer. -/
theorem failed_flush_post_state (enc : List Nat → List Nat) (w : Writer Unit)
    (p : List Nat) (h1 : w.n ≤ 8) (h2 : w.buf.length = 8)
    (h3 : 8 - w.n ≤ p.length) (h4 : p ≠ []) :
    Writer.Write failWr enc w p =
      ({ w with buf := w.buf.take w.n ++ p.take (8 - w.n),
                crc := UpdateCRC w.crc (w.buf.take w.n ++ p.take (8 - w.n)),
                off := w.off + ((8 : Int) - (w.n : Int)), n := 0 }, 0, true) := by
  obtain ⟨f, hf⟩ : ∃ f, p.length + 1 = f + 1 := ⟨p.length, rfl⟩
  unfold Writer.Write
  rw [hf]
  unfold Writer.WriteAux
  rw [if_neg h4]
  have hc : min (w.buf.length - w.n) p.length = 8 - w.n := by omega
  have hn8 : w.n + (8 - w.n) = 8 := by omega
  have hdrop8 : w.buf.drop 8 = [] := List.drop_eq_nil_of_le (by omega)
  unfold Writer.write
  simp only [copyTo, hc, hn8, hdrop8, List.append_nil, Block, if_true, eq_self_iff_true]
  unfold Writer.flush failWr
  simp only [Prod.mk.injEq, Writer.mk.injEq, and_true, true_and]
  push_cast [Block]
  omega

/-- C10 witness: a full-block write into an always-failing sink, from a
fresh writer. -/
theorem failed_flush_witness :
    (Writer.mk0 () false false).n ≤ 8 ∧
    Writer.Write failWr id (Writer.mk0 () false false) [1,2,3,4,5,6,7,8] =
      ({ Writer.mk0 () false false with
          buf := (Writer.mk0 () false false).buf.take (Writer.mk0 () false false).n ++
            ([1,2,3,4,5,6,7,8] : List Nat).take (8 - (Writer.mk0 () false false).n),
          crc := UpdateCRC (Writer.mk0 () false false).crc
            ((Writer.mk0 () false false).buf.take (Writer.mk0 () false false).n ++
              ([1,2,3,4,5,6,7,8] : List Nat).take (8 - (Writer.mk0 () false false).n)),
          off := (Writer.mk0 () false false).off +
            ((8 : Int) - ((Writer.mk0 () false false).n : Int)),
          n := 0 }, 0, true) :=
  ⟨by decide,
   failed_flush_post_state id (Writer.mk0 () false false) [1,2,3,4,5,6,7,8]
     (by decide) (by decide) (by decide) (by decide)⟩

/-- C5: whenever the reader needs a new block (none loaded or the current
one exhausted) and the source holds fewer than one full block, `Read`
fails, delivers no bytes, and leaves the cursor in the needs-refill state
it was in (the error is surfaced after a single attempt). -/
theorem truncated_block_error (dec : List Nat → List Nat) (r : Reader) (k : Nat)
    (hneed : r.i < 0 ∨ (Block : Int) ≤ r.i)
    (hshort : r.data.length - r.pos < Block) (hk : 1 ≤ k) :
    (Reader.Read dec r k).2.1 = [] ∧ (Reader.Read dec r k).2.2 = true ∧
    (Reader.Read dec r k).1.i = r.i := by
  obtain ⟨f, hf⟩ : ∃ f, k = f + 1 := ⟨k - 1, by omega⟩
  subst hf
  unfold Reader.Read Reader.ReadAux
  rw [if_neg (by omega)]
  unfold Reader.read
  rw [if_pos hneed]
  unfold Reader.readNext
  have hlen : ((r.data.drop r.pos).take Block).length < Block := by
    simp only [List.length_take, List.length_drop]
    unfold Block at hshort ⊢
    omega
  rw [if_pos hlen]
  exact ⟨rfl, rfl, rfl⟩

/-- C5 witness: a fresh reader over a 3-byte (truncated) stream. -/
theorem truncated_block_error_witness :
    ((Reader.mk0 [1,2,3] false).i < 0 ∨ (Block : Int) ≤ (Reader.mk0 [1,2,3] false).i) ∧
    (Reader.Read id (Reader.mk0 [1,2,3] false) 1).2.2 = true :=
  ⟨Or.inl (by decide),
   (truncated_block_error id (Reader.mk0 [1,2,3] false) 1
      (Or.inl (by decide)) (by decide) (by decide)).2.1⟩

/-- C7: `Align` is the identity (nothing read from the source, state
unchanged) exactly when the buffered byte count is a multiple of the
block size — including the no-block-loaded and exhausted states, where
`Buffered` is 0 — and otherwise forces an immediate block refill. -/
theorem align_idempotent (dec : List Nat → List Nat) (r : Reader) :
    (r.Buffered % Block = 0 → Reader.Align dec r = (r, false)) ∧
    (r.Buffered % Block ≠ 0 → Reader.Align dec r = Reader.readNext dec r) := by
  constructor
  · intro h
    unfold Reader.Align
    rw [if_neg (by simp [h])]
  · intro h
    unfold Reader.Align
    rw [if_pos h]

/-- C7 witness: aligned state (fresh reader, nothing buffered) — `Align`
is a no-op. -/
theorem align_idempotent_witness :
    (Reader.mk0 [1,2,3,4,5,6,7,8] false).Buffered % Block = 0 ∧
    Reader.Align id (Reader.mk0 [1,2,3,4,5,6,7,8] false) =
      (Reader.mk0 [1,2,3,4,5,6,7,8] false, false) :=
  ⟨by decide,
   (align_idempotent id (Reader.mk0 [1,2,3,4,5,6,7,8] false)).1 (by decide)⟩

/-- C8: a patch (`WriteBlockAt`) on a sink without the random-access
capability and a `Seek` on a source without the seek capability both fail
immediately with the unsupported-operation error, leaving the writer's
and the reader's entire internal state unchanged. -/
theorem unsupported_capability {σ : Type} (wrAt : σ → List Nat → Int → σ × Bool)
    (enc dec : List Nat → List Nat) (w : Writer σ) (buf : List Nat) (off : Int)
    (r : Reader) (off2 : Int) (whence : Nat)
    (hw : w.hasAt = false) (hr : r.hasSeek = false) :
    Writer.WriteBlockAt wrAt enc w buf off = (w, true) ∧
    Reader.Seek dec r off2 whence = (r, 0, true) := by
  constructor
  · unfold Writer.WriteBlockAt
    rw [if_pos (by simp [hw])]
  · unfold Reader.Seek
    rw [if_pos (by simp [hr])]

/-- C8 witness: concrete writer and reader lacking the capabilities. -/
theorem unsupported_capability_witness :
    (Writer.mk0 () false false).hasAt = false ∧
    Writer.WriteBlockAt (fun s _ _ => (s, false)) id (Writer.mk0 () false false)
      (List.replicate 8 0xAA) 0 = (Writer.mk0 () false false, true) ∧
    Reader.Seek id (Reader.mk0 [] false) 0 0 = (Reader.mk0 [] false, 0, true) := by
  have h := unsupported_capability (fun s _ _ => (s, false)) id id
    (Writer.mk0 () false false) (List.replicate 8 0xAA) 0 (Reader.mk0 [] false) 0 0
    rfl rfl
  exact ⟨rfl, h.1, h.2⟩

theorem chunk8_nil : chunk8 [] = [] := by
  unfold chunk8
  rfl

theorem chunk8_ne (S : List Nat) (h : S ≠ []) :
    chunk8 S = padTo8 (S.take Block) :: chunk8 (S.drop Block) := by
  conv_lhs => unfold chunk8
  rw [dif_neg h]

theorem chunkFull_small (S : List Nat) (h : S.length < Block) : chunkFull S = [] := by
  unfold chunkFull
  rw [dif_pos h]

theorem chunkFull_large (S : List Nat) (h : ¬ S.length < Block) :
    chunkFull S = S.take Block :: chunkFull (S.drop Block) := by
  conv_lhs => unfold chunkFull
  rw [dif_neg h]

theorem padTo8_length (l : List Nat) (h : l.length ≤ Block) :
    (padTo8 l).length = Block := by
  simp [padTo8]
  omega

theorem padTo8_full (l : List Nat) (h : l.length = Block) : padTo8 l = l := by
  simp [padTo8, h]

theorem chunk8_mem_length (S : List Nat) :
    ∀ c ∈ chunk8 S, c.length = Block := by
  obtain ⟨n, hn⟩ : ∃ n, S.length ≤ n := ⟨S.length, le_refl _⟩
  induction n generalizing S with
  | zero =>
    have : S = [] := List.length_eq_zero.mp (by omega)
    subst this
    simp [chunk8_nil]
  | succ n ih =>
    by_cases h : S = []
    · subst h; simp [chunk8_nil]
    · rw [chunk8_ne S h]
      intro c hc
      rcases List.mem_cons.mp hc with h1 | h2
      · subst h1
        exact padTo8_length _ (by simp)
      · exact ih (S.drop Block) (by simp [List.length_drop]; unfold Block; omega) c h2

theorem chunk8_flatten (S : List Nat) :
    (chunk8 S).flatten = S ++ List.replicate ((Block - S.length % Block) % Block) 0 := by
  obtain ⟨n, hn⟩ : ∃ n, S.length ≤ n := ⟨S.length, le_refl _⟩
  induction n generalizing S with
  | zero =>
    have : S = [] := List.length_eq_zero.mp (by omega)
    subst this
    simp [chunk8_nil, Block]
  | succ n ih =>
    by_cases h : S = []
    · subst h; simp [chunk8_nil, Block]
    · rw [chunk8_ne S h, List.flatten_cons,
        ih (S.drop Block) (by simp [List.length_drop]; unfold Block; omega)]
      by_cases hlen : S.length < Block
      · have hpos : 0 < S.length := List.length_pos.mpr h
        rw [List.take_of_length_le (by omega), List.drop_eq_nil_of_le (by omega)]
        simp only [List.length_nil, Nat.zero_mod, Nat.sub_zero, Nat.mod_self,
          List.replicate_zero, List.append_nil, List.nil_append, padTo8]
        have hrep : (Block - S.length % Block) % Block = Block - S.length := by
          unfold Block at hlen ⊢
          omega
        rw [hrep]
      · have hmod : (S.drop Block).length % Block = S.length % Block := by
          simp only [List.length_drop]
          unfold Block at hlen ⊢
          omega
        rw [hmod, padTo8_full _ (by rw [List.length_take]; omega),
          ← List.append_assoc, List.take_append_drop]

theorem chunk8_of_blocks (L : List (List Nat)) (h : ∀ b ∈ L, b.length = Block) :
    chunk8 L.flatten = L := by
  induction L with
  | nil => simp [chunk8_nil]
  | cons b L ih =>
    have hb : b.length = Block := h b (by simp)
    have hbne : b ≠ [] := by
      intro hb0
      rw [hb0] at hb
      unfold Block at hb
      simp at hb
    have hne : (b :: L).flatten ≠ [] := by
      simp only [List.flatten_cons]
      exact fun hc => hbne (List.append_eq_nil.mp hc).1
    rw [chunk8_ne _ hne, List.flatten_cons]
    have ht : (b ++ L.flatten).take Block = b := by
      rw [← hb]
      exact List.take_left b L.flatten
    have hd : (b ++ L.flatten).drop Block = L.flatten := by
      rw [← hb]
      exact List.drop_left b L.flatten
    rw [ht, hd, padTo8_full b hb, ih (fun c hc => h c (by simp [hc]))]

theorem chunk8_eq_chunkFull (S : List Nat) :
    chunk8 S = chunkFull S ++
      (if S.length % Block = 0 then []
       else [padTo8 (S.drop (Block * (S.length / Block)))]) := by
  obtain ⟨n, hn⟩ : ∃ n, S.length ≤ n := ⟨S.length, le_refl _⟩
  induction n generalizing S with
  | zero =>
    have : S = [] := List.length_eq_zero.mp (by omega)
    subst this
    simp [chunk8_nil, chunkFull_small [] (by simp [Block]), Block]
  | succ n ih =>
    by_cases h : S = []
    · subst h; simp [chunk8_nil, chunkFull_small [] (by simp [Block]), Block]
    · rw [chunk8_ne S h]
      by_cases hlen : S.length < Block
      · have hpos : 0 < S.length := List.length_pos.mpr h
        rw [chunkFull_small S hlen, List.take_of_length_le (by omega),
          List.drop_eq_nil_of_le (by omega), chunk8_nil]
        rw [if_neg (by unfold Block at hlen ⊢; omega)]
        have hdiv : S.length / Block = 0 := Nat.div_eq_of_lt hlen
        rw [hdiv]
        simp
      · rw [chunkFull_large S hlen,
          ih (S.drop Block) (by simp [List.length_drop]; unfold Block; omega)]
        have hmod : (S.drop Block).length % Block = S.length % Block := by
          simp only [List.length_drop]
          unfold Block at hlen ⊢
          omega
        rw [hmod, padTo8_full _ (by rw [List.length_take]; omega)]
        by_cases hz : S.length % Block = 0
        · simp [hz]
        · rw [if_neg hz, if_neg hz]
          have hdd : (S.drop Block).drop (Block * ((S.drop Block).length / Block)) =
              S.drop (Block * (S.length / Block)) := by
            rw [List.drop_drop, List.length_drop]
            congr 1
            unfold Block at hlen ⊢
            omega
          rw [hdd]
          simp

theorem plainOf_nil (dec : List Nat → List Nat) : plainOf dec [] = [] := by
  simp [plainOf, chunk8_nil]

theorem plainOf_ne (dec : List Nat → List Nat) (S : List Nat) (h : S ≠ []) :
    plainOf dec S = dec (padTo8 (S.take Block)) ++ plainOf dec (S.drop Block) := by
  unfold plainOf
  rw [chunk8_ne S h]
  simp

theorem plainOf_length (dec : List Nat → List Nat)
    (hdec : ∀ b, b.length = Block → (dec b).length = Block)
    (S : List Nat) (h8 : S.length % Block = 0) :
    (plainOf dec S).length = S.length := by
  obtain ⟨n, hn⟩ : ∃ n, S.length ≤ n := ⟨S.length, le_refl _⟩
  induction n generalizing S with
  | zero =>
    have : S = [] := List.length_eq_zero.mp (by omega)
    subst this
    simp [plainOf_nil]
  | succ n ih =>
    by_cases h : S = []
    · subst h; simp [plainOf_nil]
    · have hpos : 0 < S.length := List.length_pos.mpr h
      have hge : Block ≤ S.length := by
        unfold Block at h8 ⊢
        omega
      rw [plainOf_ne dec S h]
      have htk : (S.take Block).length = Block := by
        rw [List.length_take]
        omega
      have hhead : (dec (padTo8 (S.take Block))).length = Block :=
        hdec _ (padTo8_length _ (by omega))
      rw [List.length_append, hhead,
        ih (S.drop Block)
          (by simp only [List.length_drop]; unfold Block at h8 ⊢; omega)
          (by simp only [List.length_drop]; unfold Block; omega)]
      simp only [List.length_drop]
      omega

theorem plainOf_drop (dec : List Nat → List Nat)
    (hdec : ∀ b, b.length = Block → (dec b).length = Block)
    (S : List Nat) (q : Nat) (hq : q % Block = 0) (hle : q ≤ S.length) :
    (plainOf dec S).drop q = plainOf dec (S.drop q) := by
  obtain ⟨n, hn⟩ : ∃ n, q ≤ n := ⟨q, le_refl _⟩
  induction n generalizing q S with
  | zero =>
    have : q = 0 := by omega
    subst this
    simp
  | succ n ih =>
    by_cases hq0 : q = 0
    · subst hq0; simp
    · have hge : Block ≤ q := by
        unfold Block at hq ⊢
        omega
      have hSne : S ≠ [] := by
        intro h0
        rw [h0] at hle
        simp at hle
        unfold Block at hge
        omega
      rw [plainOf_ne dec S hSne]
      have htk : (S.take Block).length = Block := by
        rw [List.length_take]
        omega
      have hhead : (dec (padTo8 (S.take Block))).length = Block :=
        hdec _ (padTo8_length _ (by omega))
      have hstep : ∀ (A B : List Nat) (m : Nat), A.length = Block →
          (A ++ B).drop (Block + m) = B.drop m := by
        intro A B m hA
        rw [← hA, List.drop_append]
      calc (dec (padTo8 (S.take Block)) ++ plainOf dec (S.drop Block)).drop q
          = (plainOf dec (S.drop Block)).drop (q - Block) := by
            have hx := hstep (dec (padTo8 (S.take Block))) (plainOf dec (S.drop Block))
              (q - Block) hhead
            rw [show Block + (q - Block) = q from by omega] at hx
            exact hx
        _ = plainOf dec ((S.drop Block).drop (q - Block)) :=
            ih (S.drop Block) (q - Block)
              (by unfold Block at hq ⊢; omega)
              (by simp only [List.length_drop]; omega)
              (by unfold Block; omega)
        _ = plainOf dec (S.drop q) := by
            rw [List.drop_drop, show Block + (q - Block) = q from by omega]

theorem read_good (dec : List Nat → List Nat)
    (hdec : ∀ b, b.length = Block → (dec b).length = Block)
    (S : List Nat) (hS : S.length % Block = 0) (q k : Nat) (r : Reader)
    (hg : Good dec S q r) (hk : 1 ≤ k) (hlt : q < S.length) :
    ∃ r2 m, Reader.read dec r k = (r2, ((plainOf dec S).drop q).take m, false) ∧
      1 ≤ m ∧ m ≤ k ∧ m + q ≤ S.length ∧ Good dec S (q + m) r2 := by
  obtain ⟨hdata, hpos8, hposle, hdisj⟩ := hg
  subst hdata
  by_cases hrefill : r.i < 0 ∨ (Block : Int) ≤ r.i
  · -- needs a refill: q is exactly the source cursor
    have hq : q = r.pos := by
      rcases hdisj with ⟨_, hq⟩ | ⟨j, hij, hjle, hple, hbuf, hqj⟩
      · exact hq
      · rcases hrefill with hlt0 | hge8
        · rw [hij] at hlt0
          exact absurd hlt0 (not_lt.mpr (Int.natCast_nonneg j))
        · rw [hij] at hge8
          have : Block ≤ j := by exact_mod_cast hge8
          omega
    have hge8 : Block ≤ r.data.length - r.pos := by
      unfold Block at hpos8 hS ⊢
      omega
    have hgot : ((r.data.drop r.pos).take Block).length = Block := by
      rw [List.length_take, List.length_drop]
      omega
    have hnotshort : ¬ ((r.data.drop r.pos).take Block).length < Block := by
      omega
    unfold Reader.read
    rw [if_pos hrefill]
    unfold Reader.readNext
    rw [if_neg hnotshort]
    unfold Reader.serve
    simp only [Int.toNat_zero, List.drop_zero, Int.zero_add, Nat.sub_zero]
    refine
      ⟨{ r with
          pos := r.pos + Block
          buf := dec ((r.data.drop r.pos).take Block)
          i := ((min Block k : Nat) : Int) },
        min Block k, ?_, ?_, ?_, ?_, ?_⟩
    · have hbytes : (dec ((r.data.drop r.pos).take Block)).take (min Block k)
          = ((plainOf dec r.data).drop q).take (min Block k) := by
        rw [plainOf_drop dec hdec r.data q (by rw [hq]; exact hpos8) (by omega), hq]
        have hne : r.data.drop r.pos ≠ [] := by
          intro h0
          have := congrArg List.length h0
          simp only [List.length_drop, List.length_nil] at this
          unfold Block at hge8
          omega
        rw [plainOf_ne dec _ hne,
          padTo8_full _ (by rw [List.length_take, List.length_drop]; omega),
          List.take_append_of_le_length (by rw [hdec _ hgot]; omega)]
      rw [← hbytes]
    · unfold Block
      omega
    · omega
    · have hple2 := hposle
      unfold Block at hge8 ⊢
      omega
    · refine ⟨rfl, ?_, ?_, Or.inr ⟨min Block k, ?_, ?_, ?_, ?_, ?_⟩⟩
      · show (r.pos + Block) % Block = 0
        unfold Block at hpos8 ⊢
        omega
      · show r.pos + Block ≤ r.data.length
        unfold Block at hge8 ⊢
        omega
      · show ((min Block k : Nat) : Int) = ((min Block k : Nat) : Int)
        rfl
      · show min Block k ≤ Block
        omega
      · show Block ≤ r.pos + Block
        omega
      · show dec ((r.data.drop r.pos).take Block)
            = dec ((r.data.drop (r.pos + Block - Block)).take Block)
        rw [Nat.add_sub_cancel]
      · show q + min Block k + Block = r.pos + Block + min Block k
        omega
  · -- a block is loaded with bytes remaining
    push_neg at hrefill
    obtain ⟨hi0, hi8⟩ := hrefill
    rcases hdisj with ⟨hlt0, _⟩ | ⟨j, hij, hjle, hple, hbuf, hqj⟩
    · omega
    have hjlt : j < Block := by
      rw [hij] at hi8
      exact_mod_cast hi8
    have hblen : r.buf.length = Block := by
      rw [hbuf]
      exact hdec _ (by rw [List.length_take, List.length_drop]; omega)
    unfold Reader.read
    rw [if_neg (by push_neg; exact ⟨hi0, hi8⟩)]
    unfold Reader.serve
    rw [hij]
    simp only [Int.toNat_natCast]
    refine ⟨{ r with i := (j : Int) + ((min (Block - j) k : Nat) : Int) },
      min (Block - j) k, ?_, by omega, by omega, by omega, ?_⟩
    · have hbytes : (r.buf.drop j).take (min (Block - j) k)
          = ((plainOf dec r.data).drop q).take (min (Block - j) k) := by
        have hq : q = (r.pos - Block) + j := by omega
        have hdropq : (plainOf dec r.data).drop q
            = r.buf.drop j ++ ((chunk8 (r.data.drop ((r.pos - Block) + Block))).map dec).flatten := by
          rw [hq, ← List.drop_drop,
            plainOf_drop dec hdec r.data (r.pos - Block)
              (by unfold Block at hpos8 ⊢; omega) (by omega)]
          have hne : r.data.drop (r.pos - Block) ≠ [] := by
            intro h0
            have := congrArg List.length h0
            simp only [List.length_drop, List.length_nil] at this
            unfold Block at hple
            omega
          rw [plainOf_ne dec _ hne,
            padTo8_full _ (by rw [List.length_take, List.length_drop]; omega), ← hbuf]
          rw [List.drop_append_of_le_length (by omega)]
          unfold plainOf
          rw [List.drop_drop]
        rw [hdropq, List.take_append_of_le_length]
        rw [List.length_drop, hblen]
        omega
      rw [← hbytes]
    · refine ⟨rfl, hpos8, hposle, Or.inr ⟨j + min (Block - j) k, ?_, by omega, hple, hbuf, ?_⟩⟩
      · push_cast
        ring
      · show q + min (Block - j) k + Block = r.pos + (j + min (Block - j) k)
        omega

theorem ReadAux_good (dec : List Nat → List Nat)
    (hdec : ∀ b, b.length = Block → (dec b).length = Block)
    (S : List Nat) (hS : S.length % Block = 0) :
    ∀ (fuel k q : Nat) (r : Reader), Good dec S q r → k ≤ fuel → q + k ≤ S.length →
    ∃ r2, Reader.ReadAux dec fuel r k = (r2, ((plainOf dec S).drop q).take k, false) ∧
      Good dec S (q + k) r2 := by
  intro fuel
  induction fuel with
  | zero =>
    intro k q r hg hk hqk
    have hk0 : k = 0 := by omega
    subst hk0
    exact ⟨r, by simp [Reader.ReadAux], by simpa using hg⟩
  | succ fuel ih =>
    intro k q r hg hk hqk
    by_cases hk0 : k = 0
    · subst hk0
      refine ⟨r, ?_, by simpa using hg⟩
      unfold Reader.ReadAux
      simp
    · obtain ⟨r1, m, hread, hm1, hmk, hmq, hg1⟩ :=
        read_good dec hdec S hS q k r hg (by omega) (by omega)
      have hplen : (plainOf dec S).length = S.length := plainOf_length dec hdec S hS
      have hbslen : (((plainOf dec S).drop q).take m).length = m := by
        rw [List.length_take, List.length_drop, hplen]
        omega
      obtain ⟨r2, hrec, hg2⟩ := ih (k - m) (q + m) r1 hg1 (by omega) (by omega)
      refine ⟨r2, ?_, by rw [show q + k = q + m + (k - m) from by omega]; exact hg2⟩
      unfold Reader.ReadAux
      rw [if_neg hk0, hread]
      dsimp only
      rw [hbslen, hrec]
      dsimp only
      have hsplit : ((plainOf dec S).drop q).take k
          = ((plainOf dec S).drop q).take m ++ (((plainOf dec S).drop q).drop m).take (k - m) := by
        rw [← List.take_add, show m + (k - m) = k from by omega]
      rw [hsplit, List.drop_drop]

/-- `Read` from a good state at logical position `q` returns exactly the
next `k` decrypted bytes and lands in a good state at `q + k`. -/
theorem Read_good (dec : List Nat → List Nat)
    (hdec : ∀ b, b.length = Block → (dec b).length = Block)
    (S : List Nat) (hS : S.length % Block = 0) (k q : Nat) (r : Reader)
    (hg : Good dec S q r) (hqk : q + k ≤ S.length) :
    ∃ r2, Reader.Read dec r k = (r2, ((plainOf dec S).drop q).take k, false) ∧
      Good dec S (q + k) r2 :=
  ReadAux_good dec hdec S hS k k q r hg (le_refl k) hqk

theorem Good_mk0 (dec : List Nat → List Nat) (S : List Nat) (hs : Bool) :
    Good dec S 0 (Reader.mk0 S hs) :=
  ⟨rfl, rfl, Nat.zero_le _, Or.inl ⟨show (-1 : Int) < 0 from by decide, rfl⟩⟩

theorem seekSrc_start (r : Reader) (O : Nat) :
    Reader.seekSrc r (O : Int) 0 = ({ r with pos := O }, (O : Int), false) := by
  show (if (0 : Int) + (O : Int) < 0 then (r, 0, true)
    else ({ r with pos := ((0 : Int) + (O : Int)).toNat }, (0 : Int) + (O : Int), false))
    = ({ r with pos := O }, (O : Int), false)
  rw [if_neg (by omega), Int.zero_add, Int.toNat_natCast]

theorem seekSrc_back (r : Reader) (rem : Nat) (h : rem ≤ r.pos) :
    Reader.seekSrc r (-(rem : Int)) 1 =
      ({ r with pos := r.pos - rem }, ((r.pos - rem : Nat) : Int), false) := by
  show (if (r.pos : Int) + -(rem : Int) < 0 then (r, 0, true)
    else ({ r with pos := ((r.pos : Int) + -(rem : Int)).toNat },
      (r.pos : Int) + -(rem : Int), false))
    = ({ r with pos := r.pos - rem }, ((r.pos - rem : Nat) : Int), false)
  rw [if_neg (by omega)]
  have h1 : ((r.pos : Int) + -(rem : Int)) = ((r.pos - rem : Nat) : Int) := by omega
  rw [h1, Int.toNat_natCast]

theorem readNext_ok (dec : List Nat → List Nat) (r : Reader)
    (h : r.pos + Block ≤ r.data.length) :
    Reader.readNext dec r =
      ({ r with
          pos := r.pos + Block
          buf := dec ((r.data.drop r.pos).take Block)
          i := 0 }, false) := by
  unfold Reader.readNext
  have hlen : ((r.data.drop r.pos).take Block).length = Block := by
    rw [List.length_take, List.length_drop]
    omega
  rw [if_neg (by rw [hlen]; omega)]

theorem Seek_start_good (dec : List Nat → List Nat)
    (hdec : ∀ b, b.length = Block → (dec b).length = Block)
    (S : List Nat) (hS : S.length % Block = 0) (O : Nat) (hO : O < S.length) :
    ∃ r2, Reader.Seek dec (Reader.mk0 S true) (O : Int) 0 = (r2, (O : Int), false) ∧
      Good dec S O r2 := by
  have hcast : ((O : Int) % ((Block : Nat) : Int)) = ((O % Block : Nat) : Int) :=
    (Int.natCast_mod O Block).symm
  unfold Reader.Seek
  rw [if_neg (by simp [Reader.mk0])]
  rw [if_neg (by decide : ¬ ((0 : Nat) = 1))]
  dsimp only
  rw [seekSrc_start]
  dsimp only
  simp only [hcast]
  by_cases hrem : O % Block = 0
  · rw [if_neg (by simp), if_pos (by exact_mod_cast hrem)]
    refine ⟨_, rfl, rfl, ?_, ?_, Or.inl ⟨show (-1 : Int) < 0 from by decide, rfl⟩⟩
    · show O % Block = 0
      exact hrem
    · show O ≤ S.length
      omega
  · rw [if_neg (by simp), if_neg (by exact_mod_cast hrem)]
    rw [seekSrc_back _ _ (show O % Block ≤ O from Nat.mod_le O Block)]
    dsimp only
    rw [readNext_ok dec _ (show O - O % Block + Block ≤ S.length by
      unfold Block at hS hrem ⊢
      omega)]
    dsimp only
    refine ⟨_, rfl, rfl, ?_, ?_, Or.inr ⟨O % Block, rfl, ?_, ?_, ?_, ?_⟩⟩
    · show (O - O % Block + Block) % Block = 0
      unfold Block
      omega
    · show O - O % Block + Block ≤ S.length
      unfold Block at hS hrem ⊢
      omega
    · show O % Block ≤ Block
      have h2 := Nat.mod_lt O (show 0 < Block from by decide)
      omega
    · show Block ≤ O - O % Block + Block
      omega
    · show dec ((S.drop (O - O % Block)).take Block)
          = dec ((S.drop (O - O % Block + Block - Block)).take Block)
      rw [Nat.add_sub_cancel]
    · show O + Block = O - O % Block + Block + O % Block
      have h2 := Nat.mod_le O Block
      omega

/-- C6: on a seekable source of N full encrypted blocks, seeking to any
byte offset O and then reading K bytes (O + K within the stream) yields
the same bytes as reading sequentially from the start and discarding the
first O bytes; the Seek itself succeeds and reports offset O. -/
theorem seek_consistency (dec : List Nat → List Nat)
    (hdec : ∀ b, b.length = Block → (dec b).length = Block)
    (S : List Nat) (hS : S.length % Block = 0) (O K : Nat)
    (hO : O < S.length) (hOK : O + K ≤ S.length) :
    (Reader.Seek dec (Reader.mk0 S true) (O : Int) 0).2.1 = (O : Int) ∧
    (Reader.Seek dec (Reader.mk0 S true) (O : Int) 0).2.2 = false ∧
    (Reader.Read dec (Reader.Seek dec (Reader.mk0 S true) (O : Int) 0).1 K).2.2 = false ∧
    (Reader.Read dec (Reader.mk0 S true) (O + K)).2.2 = false ∧
    (Reader.Read dec (Reader.Seek dec (Reader.mk0 S true) (O : Int) 0).1 K).2.1
      = ((Reader.Read dec (Reader.mk0 S true) (O + K)).2.1).drop O := by
  obtain ⟨r2, hseek, hg2⟩ := Seek_start_good dec hdec S hS O hO
  obtain ⟨r3, hread, hg3⟩ := Read_good dec hdec S hS K O r2 hg2 hOK
  obtain ⟨r4, hread0, hg4⟩ :=
    Read_good dec hdec S hS (O + K) 0 (Reader.mk0 S true) (Good_mk0 dec S true) (by omega)
  rw [hseek]
  dsimp only
  rw [hread, hread0]
  dsimp only
  refine ⟨rfl, rfl, rfl, rfl, ?_⟩
  rw [List.drop_zero, List.take_drop]

/-- C6 witness: a 16-byte stream (two blocks), identity cipher, seek to
offset 3 and read 5 bytes. -/
theorem seek_consistency_witness :
    ([0,1,2,3,4,5,6,7,8,9,10,11,12,13,14,15] : List Nat).length % Block = 0 ∧
    (Reader.Read id
        (Reader.Seek id (Reader.mk0 [0,1,2,3,4,5,6,7,8,9,10,11,12,13,14,15] true)
          ((3 : Nat) : Int) 0).1 5).2.1
      = ((Reader.Read id (Reader.mk0 [0,1,2,3,4,5,6,7,8,9,10,11,12,13,14,15] true)
          (3 + 5)).2.1).drop 3 :=
  ⟨by decide,
   (seek_consistency id (fun b h => h) [0,1,2,3,4,5,6,7,8,9,10,11,12,13,14,15]
     (by decide) 3 5 (by decide) (by decide)).2.2.2.2⟩

theorem WriteAux_nil {σ : Type} (wr : σ → List Nat → σ × Bool)
    (enc : List Nat → List Nat) (fuel : Nat) (w : Writer σ) :
    Writer.WriteAux wr enc fuel w [] = (w, 0, false) := by
  cases fuel with
  | zero => rfl
  | succ fuel =>
    unfold Writer.WriteAux
    rw [if_pos rfl]

theorem write_n0_small (enc : List Nat → List Nat) (w : Writer (List Nat))
    (p : List Nat) (h0 : w.n = 0) (hbuf : w.buf.length = Block)
    (hlen : p.length < Block) :
    Writer.write pureWr enc w p =
      ({ w with
          buf := p ++ w.buf.drop p.length
          n := p.length
          off := w.off + (p.length : Int) }, p.length, false) := by
  unfold Writer.write
  unfold copyTo
  dsimp only
  rw [h0]
  have hc : min (w.buf.length - 0) p.length = p.length := by omega
  rw [hc]
  rw [if_neg (by omega)]
  simp [List.take_length]

theorem write_n0_large (enc : List Nat → List Nat) (w : Writer (List Nat))
    (p : List Nat) (h0 : w.n = 0) (hbuf : w.buf.length = Block)
    (hnz : w.NoZero = false) (hlen : Block ≤ p.length) :
    Writer.write pureWr enc w p =
      ({ w with
          sink := w.sink ++ enc (p.take Block)
          buf := p.take Block
          n := 0
          off := w.off + (Block : Int)
          crc := UpdateCRC w.crc (p.take Block) }, Block, false) := by
  unfold Writer.write
  unfold copyTo
  dsimp only
  rw [h0]
  have hc : min (w.buf.length - 0) p.length = Block := by omega
  rw [hc]
  have hdrop : w.buf.drop (0 + Block) = [] := List.drop_eq_nil_of_le (by omega)
  rw [hdrop]
  rw [if_pos (by omega)]
  unfold Writer.flush pureWr
  dsimp only
  rw [hnz]
  rw [if_neg (show ¬ ((false : Bool) = true) from by decide)]
  simp only [Prod.mk.injEq, Writer.mk.injEq, List.take_nil, List.append_nil,
    List.nil_append, and_true, true_and, List.take_zero]
  push_cast
  ring

theorem WriteAux_spec (enc : List Nat → List Nat) :
    ∀ (fuel : Nat) (P : List Nat) (w : Writer (List Nat)),
    w.n = 0 → w.buf.length = Block → w.NoZero = false → P.length < fuel →
    ∃ w2, Writer.WriteAux pureWr enc fuel w P = (w2, P.length, false) ∧
      w2.sink = w.sink ++ ((chunkFull P).map enc).flatten ∧
      w2.n = P.length % Block ∧
      w2.buf.take (P.length % Block) = P.drop (Block * (P.length / Block)) ∧
      w2.buf.length = Block ∧
      w2.NoZero = false ∧
      w2.crc = List.foldl UpdateCRC w.crc (chunkFull P) ∧
      w2.off = w.off + (P.length : Int) := by
  intro fuel
  induction fuel with
  | zero =>
    intro P w _ _ _ hf
    omega
  | succ fuel ih =>
    intro P w h0 hbuf hnz hf
    by_cases hP : P = []
    · subst hP
      refine ⟨w, ?_, ?_, ?_, ?_, hbuf, hnz, ?_, ?_⟩
      · rw [WriteAux_nil]
        rfl
      · rw [chunkFull_small [] (by unfold Block; simp)]
        simp
      · simpa using h0
      · simp
      · rw [chunkFull_small [] (by unfold Block; simp)]
        rfl
      · simp
    · unfold Writer.WriteAux
      rw [if_neg hP]
      by_cases hsmall : P.length < Block
      · rw [write_n0_small enc w P h0 hbuf hsmall]
        dsimp only
        rw [List.drop_length, WriteAux_nil]
        dsimp only
        have hmod : P.length % Block = P.length := Nat.mod_eq_of_lt hsmall
        have hdiv : P.length / Block = 0 := Nat.div_eq_of_lt hsmall
        refine ⟨_, rfl, ?_, ?_, ?_, ?_, hnz, ?_, ?_⟩
        · show w.sink = w.sink ++ ((chunkFull P).map enc).flatten
          rw [chunkFull_small P hsmall]
          simp
        · show P.length = P.length % Block
          omega
        · show (P ++ w.buf.drop P.length).take (P.length % Block)
              = P.drop (Block * (P.length / Block))
          rw [hmod, hdiv, Nat.mul_zero, List.drop_zero]
          exact List.take_left' rfl
        · show (P ++ w.buf.drop P.length).length = Block
          rw [List.length_append, List.length_drop]
          omega
        · show w.crc = List.foldl UpdateCRC w.crc (chunkFull P)
          rw [chunkFull_small P hsmall]
          rfl
        · show w.off + (P.length : Int) = w.off + (P.length : Int)
          rfl
      · rw [write_n0_large enc w P h0 hbuf hnz (by omega)]
        dsimp only
        obtain ⟨w3, hrec, hsink3, hn3, htake3, hlen3, hnz3, hcrc3, hoff3⟩ :=
          ih (P.drop Block)
            { w with
                sink := w.sink ++ enc (P.take Block)
                buf := P.take Block
                n := 0
                off := w.off + (Block : Int)
                crc := UpdateCRC w.crc (P.take Block) }
            rfl (by rw [List.length_take]; omega) hnz
            (by rw [List.length_drop]; unfold Block at hsmall ⊢; omega)
        rw [hrec]
        dsimp only
        rw [List.length_drop] at hn3 htake3 hoff3
        refine ⟨w3, ?_, ?_, ?_, ?_, hlen3, hnz3, ?_, ?_⟩
        · rw [show Block + (P.drop Block).length = P.length from by
            rw [List.length_drop]; omega]
        · rw [hsink3, chunkFull_large P hsmall]
          simp
        · rw [hn3]
          unfold Block at hsmall ⊢
          omega
        · rw [show P.length % Block = (P.length - Block) % Block from by
            unfold Block at hsmall ⊢; omega]
          rw [htake3, List.drop_drop]
          congr 1
          unfold Block at hsmall ⊢
          omega
        · rw [hcrc3, chunkFull_large P hsmall]
          rfl
        · rw [hoff3]
          dsimp only
          have hc : ((P.length - Block : Nat) : Int) = (P.length : Int) - (Block : Int) := by
            push_cast [Nat.cast_sub (by omega : Block ≤ P.length)]
            ring
          rw [hc]
          ring

theorem Flush_empty {σ : Type} (wr : σ → List Nat → σ × Bool)
    (enc : List Nat → List Nat) (w : Writer σ) (h : w.n = 0) :
    Writer.Flush wr enc w = (w, false) := by
  unfold Writer.Flush
  rw [if_pos h]

theorem Flush_pad (enc : List Nat → List Nat) (w : Writer (List Nat))
    (hbuf : w.buf.length = Block) (hnz : w.NoZero = false)
    (hn : w.n ≠ 0) (hlt : w.n < Block) :
    Writer.Flush pureWr enc w =
      ({ w with
          sink := w.sink ++ enc (padTo8 (w.buf.take w.n))
          buf := padTo8 (w.buf.take w.n)
          crc := UpdateCRC w.crc (padTo8 (w.buf.take w.n))
          off := w.off + ((Block : Int) - (w.n : Int))
          n := 0 }, false) := by
  have hb2 : (copyTo w.buf w.n (List.replicate Block 0)).1 = padTo8 (w.buf.take w.n) := by
    unfold copyTo padTo8
    dsimp only
    rw [List.length_replicate]
    have hmin : min (w.buf.length - w.n) Block = Block - w.n := by omega
    rw [hmin, List.take_replicate]
    have hmin2 : min (Block - w.n) Block = Block - w.n := by omega
    rw [hmin2, List.drop_eq_nil_of_le (by omega), List.length_take]
    have hmin3 : min w.n w.buf.length = w.n := by omega
    rw [hmin3]
    simp
  unfold Writer.Flush
  rw [if_neg hn, if_pos (by rw [hnz]; exact ⟨by simp, by omega⟩)]
  unfold Writer.flush pureWr
  dsimp only
  rw [hb2]

theorem encode_eq (enc : List Nat → List Nat) (P : List Nat) :
    encode enc P = ((chunk8 P).map enc).flatten := by
  obtain ⟨w2, hw, hsink, hn, htake, hlen, hnz, hcrc, hoff⟩ :=
    WriteAux_spec enc (P.length + 1) P (Writer.mk0 [] false false)
      rfl (by simp [Writer.mk0, Block]) rfl (by omega)
  unfold encode Writer.Write
  rw [hw]
  dsimp only
  by_cases hz : P.length % Block = 0
  · rw [Flush_empty pureWr enc w2 (by rw [hn, hz])]
    dsimp only
    rw [hsink, chunk8_eq_chunkFull P, if_pos hz]
    simp [Writer.mk0]
  · have hlt : w2.n < Block := by
      rw [hn]
      exact Nat.mod_lt _ (by decide)
    rw [Flush_pad enc w2 hlen hnz (by rw [hn]; exact hz) hlt]
    dsimp only
    rw [hsink, hn, htake, chunk8_eq_chunkFull P, if_neg hz]
    simp [Writer.mk0]

theorem flatten_blocks_length (L : List (List Nat))
    (h : ∀ b ∈ L, b.length = Block) : L.flatten.length = Block * L.length := by
  induction L with
  | nil => simp
  | cons b t ih =>
    rw [List.flatten_cons, List.length_append, h b (by simp),
      ih (fun c hc => h c (by simp [hc]))]
    simp
    ring

/-- C1: round-trip — writing byte payload P through a fresh writer (tail
zeroing enabled) and flushing, then reading the whole produced stream
back through a reader, yields exactly P followed by zero bytes padding it
to the next block-size multiple; the cipher is abstract, assumed
block-length-preserving with decrypt inverse to encrypt. -/
theorem round_trip (enc dec : List Nat → List Nat)
    (henc : ∀ b, b.length = Block → (enc b).length = Block)
    (hdec : ∀ b, b.length = Block → (dec b).length = Block)
    (hinv : ∀ b, b.length = Block → dec (enc b) = b)
    (P : List Nat) :
    (Reader.Read dec (Reader.mk0 (encode enc P) false) (encode enc P).length).2.1
      = P ++ List.replicate ((Block - P.length % Block) % Block) 0 ∧
    (Reader.Read dec (Reader.mk0 (encode enc P) false) (encode enc P).length).2.2
      = false := by
  have hSeq := encode_eq enc P
  have hSblocks : ∀ b ∈ (chunk8 P).map enc, b.length = Block := by
    intro b hb
    obtain ⟨c, hc, rfl⟩ := List.mem_map.mp hb
    exact henc c (chunk8_mem_length P c hc)
  have hSlen : (encode enc P).length = Block * (chunk8 P).length := by
    rw [hSeq, flatten_blocks_length _ hSblocks, List.length_map]
  have hS8 : (encode enc P).length % Block = 0 := by
    rw [hSlen]
    simp [Nat.mul_mod_right]
  have hchunkS : chunk8 (encode enc P) = (chunk8 P).map enc := by
    rw [hSeq]
    exact chunk8_of_blocks _ hSblocks
  have hplain : plainOf dec (encode enc P)
      = P ++ List.replicate ((Block - P.length % Block) % Block) 0 := by
    unfold plainOf
    rw [hchunkS, List.map_map]
    have hmapid : (chunk8 P).map (dec ∘ enc) = (chunk8 P).map id :=
      List.map_eq_map_iff.mpr (fun c hc => hinv c (chunk8_mem_length P c hc))
    rw [hmapid, List.map_id, chunk8_flatten]
  obtain ⟨r2, hread, hg2⟩ := Read_good dec hdec (encode enc P) hS8
    (encode enc P).length 0 (Reader.mk0 (encode enc P) false)
    (Good_mk0 dec (encode enc P) false) (by omega)
  rw [hread]
  refine ⟨?_, rfl⟩
  dsimp only
  rw [List.drop_zero]
  have hplen : (plainOf dec (encode enc P)).length = (encode enc P).length :=
    plainOf_length dec hdec (encode enc P) hS8
  rw [← hplen, List.take_length, hplain]

/-- C1 witness: the identity cipher, payload [1,2,3]. -/
theorem round_trip_witness :
    (Reader.Read id (Reader.mk0 (encode id [1,2,3]) false) (encode id [1,2,3]).length).2.1
      = [1,2,3] ++ List.replicate ((Block - ([1,2,3] : List Nat).length % Block) % Block) 0 :=
  (round_trip id id (fun b h => h) (fun b h => h) (fun b h => rfl) [1,2,3]).1

theorem erase_flush {σ : Type} (wr : σ → List Nat → σ × Bool)
    (enc : List Nat → List Nat) (hasAt : Bool) (crc : Nat) (s : σ)
    (buf : List Nat) (n : Nat) (off : Int) (nz : Bool) :
    legacy.Writer.flush wr enc ⟨s, buf, n, off, nz⟩
      = (eraseW (Writer.flush wr enc ⟨s, hasAt, buf, n, off, crc, nz⟩).1,
         (Writer.flush wr enc ⟨s, hasAt, buf, n, off, crc, nz⟩).2) := rfl

theorem erase_Flush {σ : Type} (wr : σ → List Nat → σ × Bool)
    (enc : List Nat → List Nat) (w : Writer σ) :
    legacy.Writer.Flush wr enc (eraseW w)
      = (eraseW (Writer.Flush wr enc w).1, (Writer.Flush wr enc w).2) := by
  unfold legacy.Writer.Flush Writer.Flush
  dsimp only [eraseW]
  by_cases h : w.n = 0
  · rw [if_pos h, if_pos h]
  · rw [if_neg h, if_neg h]
    by_cases h2 : ¬ w.NoZero ∧ w.n ≠ Block
    · rw [if_pos h2, if_pos h2]
      exact erase_flush wr enc w.hasAt w.crc w.sink _ w.n w.off w.NoZero
    · rw [if_neg h2, if_neg h2]
      exact erase_flush wr enc w.hasAt w.crc w.sink w.buf w.n w.off w.NoZero

theorem erase_write {σ : Type} (wr : σ → List Nat → σ × Bool)
    (enc : List Nat → List Nat) (w : Writer σ) (p : List Nat) :
    legacy.Writer.write wr enc (eraseW w) p
      = (eraseW (Writer.write wr enc w p).1, (Writer.write wr enc w p).2) := by
  unfold legacy.Writer.write Writer.write
  dsimp only [eraseW]
  by_cases h : w.n + (copyTo w.buf w.n p).2 = Block
  · rw [if_pos h, if_pos h]
    rw [erase_flush wr enc w.hasAt w.crc]
    cases hF : Writer.flush wr enc
        ⟨w.sink, w.hasAt, (copyTo w.buf w.n p).1, w.n + (copyTo w.buf w.n p).2,
          w.off + ((copyTo w.buf w.n p).2 : Int), w.crc, w.NoZero⟩ with
    | mk wf ef =>
      cases ef with
      | true => rfl
      | false =>
        dsimp only [eraseW]
        by_cases hz : wf.NoZero
        · rw [if_pos hz, if_pos hz]
        · rw [if_neg hz, if_neg hz]
  · rw [if_neg h, if_neg h]

theorem erase_WriteAux {σ : Type} (wr : σ → List Nat → σ × Bool)
    (enc : List Nat → List Nat) :
    ∀ (fuel : Nat) (w : Writer σ) (p : List Nat),
    legacy.Writer.WriteAux wr enc fuel (eraseW w) p
      = (eraseW (Writer.WriteAux wr enc fuel w p).1,
         (Writer.WriteAux wr enc fuel w p).2) := by
  intro fuel
  induction fuel with
  | zero => intro w p; rfl
  | succ fuel ih =>
    intro w p
    unfold legacy.Writer.WriteAux Writer.WriteAux
    by_cases hp : p = []
    · rw [if_pos hp, if_pos hp]
    · rw [if_neg hp, if_neg hp]
      rw [erase_write]
      cases hW : Writer.write wr enc w p with
      | mk w1 rest =>
        cases rest with
        | mk c e =>
          cases e with
          | true => rfl
          | false =>
            dsimp only
            rw [ih w1 (p.drop c)]

theorem erase_Write {σ : Type} (wr : σ → List Nat → σ × Bool)
    (enc : List Nat → List Nat) (w : Writer σ) (p : List Nat) :
    legacy.Writer.Write wr enc (eraseW w) p
      = (eraseW (Writer.Write wr enc w p).1, (Writer.Write wr enc w p).2) :=
  erase_WriteAux wr enc (p.length + 1) w p

theorem erase_WriteEmpty {σ : Type} (wr : σ → List Nat → σ × Bool)
    (enc : List Nat → List Nat) (w : Writer σ) :
    legacy.Writer.WriteEmpty wr enc (eraseW w)
      = (eraseW (Writer.WriteEmpty wr enc w).1, (Writer.WriteEmpty wr enc w).2.2) := by
  unfold legacy.Writer.WriteEmpty Writer.WriteEmpty
  rw [erase_Flush]
  cases hF : Writer.Flush wr enc w with
  | mk w1 e =>
    cases e with
    | true => rfl
    | false => rfl

theorem erase_runOp {σ : Type} (wr : σ → List Nat → σ × Bool)
    (enc : List Nat → List Nat) (w : Writer σ) (op : WOp) :
    runOpL wr enc (eraseW w) op = eraseW (runOp wr enc w op) := by
  cases op with
  | write p =>
    show (legacy.Writer.Write wr enc (eraseW w) p).1 = eraseW (Writer.Write wr enc w p).1
    rw [erase_Write]
  | writeU8 v =>
    show (legacy.Writer.Write wr enc (eraseW w) [v % 256]).1
      = eraseW (Writer.Write wr enc w [v % 256]).1
    rw [erase_Write]
  | writeU16 v =>
    show (legacy.Writer.Write wr enc (eraseW w) (le16 v)).1
      = eraseW (Writer.Write wr enc w (le16 v)).1
    rw [erase_Write]
  | writeU32 v =>
    show (legacy.Writer.Write wr enc (eraseW w) (le32 v)).1
      = eraseW (Writer.Write wr enc w (le32 v)).1
    rw [erase_Write]
  | writeU64 v =>
    show (legacy.Writer.Write wr enc (eraseW w) (le64 v)).1
      = eraseW (Writer.Write wr enc w (le64 v)).1
    rw [erase_Write]
  | writeI8 v =>
    show (legacy.Writer.Write wr enc (eraseW w) [toUnsigned 8 v % 256]).1
      = eraseW (Writer.Write wr enc w [toUnsigned 8 v % 256]).1
    rw [erase_Write]
  | writeI16 v =>
    show (legacy.Writer.Write wr enc (eraseW w) (le16 (toUnsigned 16 v))).1
      = eraseW (Writer.Write wr enc w (le16 (toUnsigned 16 v))).1
    rw [erase_Write]
  | writeI32 v =>
    show (legacy.Writer.Write wr enc (eraseW w) (le32 (toUnsigned 32 v))).1
      = eraseW (Writer.Write wr enc w (le32 (toUnsigned 32 v))).1
    rw [erase_Write]
  | writeI64 v =>
    show (legacy.Writer.Write wr enc (eraseW w) (le64 (toUnsigned 64 v))).1
      = eraseW (Writer.Write wr enc w (le64 (toUnsigned 64 v))).1
    rw [erase_Write]
  | flushOp =>
    show (legacy.Writer.Flush wr enc (eraseW w)).1 = eraseW (Writer.Flush wr enc w).1
    rw [erase_Flush]
  | closeOp =>
    show (legacy.Writer.Flush wr enc (eraseW w)).1 = eraseW (Writer.Flush wr enc w).1
    rw [erase_Flush]
  | writeEmptyOp =>
    show (legacy.Writer.WriteEmpty wr enc (eraseW w)).1
      = eraseW (Writer.WriteEmpty wr enc w).1
    rw [erase_WriteEmpty]

theorem erase_runOps {σ : Type} (wr : σ → List Nat → σ × Bool)
    (enc : List Nat → List Nat) :
    ∀ (ops : List WOp) (w : Writer σ),
    runOpsL wr enc (eraseW w) ops = eraseW (runOps wr enc w ops) := by
  intro ops
  induction ops with
  | nil => intro w; rfl
  | cons op ops ih =>
    intro w
    show runOpsL wr enc (runOpL wr enc (eraseW w) op) ops
      = eraseW (runOps wr enc (runOp wr enc w op) ops)
    rw [erase_runOp]
    exact ih (runOp wr enc w op)

/-- C9: the two Writer variants in the source — the checksum/patching
variant and the legacy variant — fed the same sequence of Write, typed
integer writes, Flush, Close and WriteEmpty calls from fresh states over
the same sink and cipher, leave byte-for-byte identical sink contents and
report the same Written() offsets. -/
theorem writer_variants_equiv {σ : Type} (wr : σ → List Nat → σ × Bool)
    (enc : List Nat → List Nat) (s0 : σ) (hasAt nz : Bool) (ops : List WOp) :
    (runOpsL wr enc (legacy.Writer.mk0 s0 nz) ops).sink
        = (runOps wr enc (Writer.mk0 s0 hasAt nz) ops).sink ∧
    (runOpsL wr enc (legacy.Writer.mk0 s0 nz) ops).Written
        = (runOps wr enc (Writer.mk0 s0 hasAt nz) ops).Written := by
  have h0 : legacy.Writer.mk0 s0 nz = eraseW (Writer.mk0 s0 hasAt nz) := rfl
  rw [h0, erase_runOps]
  exact ⟨rfl, rfl⟩

/-- C9 witness: both variants run a small call sequence over the pure
in-memory sink with the identity cipher. -/
theorem writer_variants_equiv_witness :
    (runOpsL pureWr id (legacy.Writer.mk0 [] false)
        [WOp.write [1,2,3], WOp.writeU16 513, WOp.writeEmptyOp, WOp.flushOp]).sink
      = (runOps pureWr id (Writer.mk0 [] false false)
        [WOp.write [1,2,3], WOp.writeU16 513, WOp.writeEmptyOp, WOp.flushOp]).sink :=
  (writer_variants_equiv pureWr id [] false false
    [WOp.write [1,2,3], WOp.writeU16 513, WOp.writeEmptyOp, WOp.flushOp]).1

end crypt
